import Mathlib

set_option maxRecDepth 40000

/-!
Verification of the fixed-point CORDIC analytics library.

The development shallowly embeds the library over integer bit patterns: a
fixed-point value of a format with total width w and f fractional bits is
represented by its underlying two's-complement bit pattern, an `Int` in the
range [-2^(w-1), 2^(w-1)-1], denoting the real number bits / 2^f.

Arithmetic mirrors the numeric interface the library consumes:
saturating add/sub/mul clamp to the representable range; the plain ring
operators wrap around (two's-complement, release-mode semantics); products
are the exact product arithmetically right-shifted by f (rounded toward
negative infinity); quotients are the widened dividend divided with
truncation toward zero; shifts are arithmetic.  Conversions from the
64-bit reference formats (I1F63 and I2F62) shift with truncation exactly
as the generic trait implementation does.  Conversions from numeric
literals round to nearest with ties to even, which is the documented
behaviour of the underlying representation, and the named constants are
the correctly rounded values of high-precision rationals.
-/

namespace FixedAnalytics

/-- A fixed-point format: total bit width and number of fractional bits. -/
structure Fmt where
  w : Nat
  f : Nat
  deriving DecidableEq, Repr

/-- Largest representable bit pattern. -/
def Fmt.maxBits (fmt : Fmt) : Int := 2 ^ (fmt.w - 1) - 1

/-- Smallest representable bit pattern. -/
def Fmt.minBits (fmt : Fmt) : Int := -(2 ^ (fmt.w - 1) : Int)

/-- Formats realizable by the library's trait implementations: widths 8 to
128 with enough integer bits for pi and the other named constants. -/
def Fmt.Valid (fmt : Fmt) : Prop :=
  (fmt.w = 8 ∨ fmt.w = 16 ∨ fmt.w = 32 ∨ fmt.w = 64 ∨ fmt.w = 128) ∧ fmt.f + 3 ≤ fmt.w

instance (fmt : Fmt) : Decidable fmt.Valid := by
  unfold Fmt.Valid; infer_instance

/-- The 32-bit format with 16 fractional bits (I16F16). -/
def i16f16 : Fmt := ⟨32, 16⟩

/-- The 32-bit format with 24 fractional bits (I8F24), a representative
high-precision format with at least 24 fractional bits. -/
def i8f24 : Fmt := ⟨32, 24⟩

/-- The 64-bit format with 42 fractional bits (I22F42). -/
def i22f42 : Fmt := ⟨64, 42⟩

/-- The 8-bit formats with one to five fractional bits (I7F1 to I3F5),
the full 8-bit range the trait admits apart from the degenerate
zero-fractional-bit case. -/
def i7f1 : Fmt := ⟨8, 1⟩

/-- The 8-bit format with two fractional bits (I6F2). -/
def i6f2 : Fmt := ⟨8, 2⟩

/-- The 8-bit format with three fractional bits (I5F3). -/
def i5f3 : Fmt := ⟨8, 3⟩

/-- The 8-bit format with four fractional bits (I4F4). -/
def i4f4 : Fmt := ⟨8, 4⟩

/-- The 8-bit format with five fractional bits (I3F5). -/
def i3f5 : Fmt := ⟨8, 5⟩

/-- Reduce a value into the representable range by two's-complement
wrap-around (the behaviour of the plain arithmetic operators). -/
def wrapv (fmt : Fmt) (v : Int) : Int :=
  (v + 2 ^ (fmt.w - 1)) % 2 ^ fmt.w - 2 ^ (fmt.w - 1)

/-- Clamp a value to the representable range (saturating write-back). -/
def satv (fmt : Fmt) (v : Int) : Int :=
  if v < fmt.minBits then fmt.minBits
  else if fmt.maxBits < v then fmt.maxBits
  else v

/-- Plain addition (wraps on overflow). -/
def addFx (fmt : Fmt) (a b : Int) : Int := wrapv fmt (a + b)

/-- Plain subtraction (wraps on overflow). -/
def subFx (fmt : Fmt) (a b : Int) : Int := wrapv fmt (a - b)

/-- Plain negation (wraps on overflow). -/
def negFx (fmt : Fmt) (a : Int) : Int := wrapv fmt (-a)

/-- Saturating addition. -/
def satAdd (fmt : Fmt) (a b : Int) : Int := satv fmt (a + b)

/-- Saturating subtraction. -/
def satSub (fmt : Fmt) (a b : Int) : Int := satv fmt (a - b)

/-- Saturating multiplication: the exact product of the denoted reals has
bit pattern a*b / 2^f rounded toward negative infinity, then clamped. -/
def satMul (fmt : Fmt) (a b : Int) : Int := satv fmt ((a * b).fdiv (2 ^ fmt.f))

/-- Arithmetic right shift. -/
def shrFx (_fmt : Fmt) (a : Int) (i : Nat) : Int := a.fdiv (2 ^ i)

/-- Left shift (wraps: high bits are discarded). -/
def shlFx (fmt : Fmt) (a : Int) (i : Nat) : Int := wrapv fmt (a * 2 ^ i)

/-- Division: the widened dividend a * 2^f divided by b with the quotient
truncated toward zero, wrapping on overflow.  Division by zero is not
reachable in the verified paths; it is given the value 0. -/
def divFx (fmt : Fmt) (a b : Int) : Int :=
  if b = 0 then 0 else wrapv fmt (Int.tdiv (a * 2 ^ fmt.f) b)

/-- Absolute value as implemented by the trait: negate when negative. -/
def absFx (fmt : Fmt) (a : Int) : Int := if a < 0 then negFx fmt a else a

/-- Reduce a value to the 64-bit two's-complement range: the i64 shift
1 << 63 in the epsilon computation of sqrt wraps to the minimum value. -/
def wrap64 (v : Int) : Int := (v + 2 ^ 63) % 2 ^ 64 - 2 ^ 63

/-- is_negative from the numeric interface. -/
def isNeg (a : Int) : Bool := a < 0

/-- is_positive from the numeric interface. -/
def isPos (a : Int) : Bool := 0 < a

/-- Round the fraction num/den (den positive) to the nearest integer,
ties to even. -/
def rneFrac (num den : Int) : Int :=
  let fl := num.fdiv den
  let r2 := 2 * (num - fl * den)
  if r2 < den then fl
  else if den < r2 then fl + 1
  else if fl % 2 = 0 then fl else fl + 1

/-- Conversion of the rational num/den into a format (from_num): round to
nearest, ties to even. -/
def fromNumFrac (fmt : Fmt) (num den : Int) : Int := rneFrac (num * 2 ^ fmt.f) den

/-- The bit pattern of one. -/
def oneBits (fmt : Fmt) : Int := 2 ^ fmt.f

/-- The bit pattern of two (from_num 2). -/
def twoBits (fmt : Fmt) : Int := fromNumFrac fmt 2 1

/-- The bit pattern of one half (from_num 0.5). -/
def halfBits (fmt : Fmt) : Int := fromNumFrac fmt 1 2

/-- Numerator of pi to 50 decimal digits (denominator 10^50). -/
def piNum : Int := 314159265358979323846264338327950288419716939937511

/-- Numerator of ln 2 to 50 decimal digits (denominator 10^50). -/
def ln2Num : Int := 69314718055994530941723212145817656807550013436026

/-- Numerator of ln 10 to 50 decimal digits (denominator 10^50). -/
def ln10Num : Int := 230258509299404568401799145468436420760110148862877

/-- The named constant pi of a format. -/
def piBits (fmt : Fmt) : Int := rneFrac (piNum * 2 ^ fmt.f) (10 ^ 50)

/-- The named constant pi/2 of a format. -/
def fracPi2Bits (fmt : Fmt) : Int := rneFrac (piNum * 2 ^ fmt.f) (2 * 10 ^ 50)

/-- The named constant ln 2 of a format. -/
def ln2Bits (fmt : Fmt) : Int := rneFrac (ln2Num * 2 ^ fmt.f) (10 ^ 50)

/-- The named constant ln 10 of a format. -/
def ln10Bits (fmt : Fmt) : Int := rneFrac (ln10Num * 2 ^ fmt.f) (10 ^ 50)

/-- The small-argument threshold of sinh_cosh (from_num 0.1): the 64-bit
floating literal 0.1 denotes exactly 3602879701896397 / 2^55. -/
def smallThreshold (fmt : Fmt) : Int := fromNumFrac fmt 3602879701896397 (2 ^ 55)

/-- Conversion from the I1F63 reference format (from_i64_frac): shift
right with truncation when the target has fewer fractional bits, left
otherwise. -/
def fromI1F63 (fmt : Fmt) (bits : Int) : Int :=
  if fmt.f ≤ 63 then bits.fdiv (2 ^ (63 - fmt.f)) else bits * 2 ^ (fmt.f - 63)

/-- Conversion from the I2F62 reference format (from_i2f62_frac). -/
def fromI2F62 (fmt : Fmt) (bits : Int) : Int :=
  if fmt.f ≤ 62 then bits.fdiv (2 ^ (62 - fmt.f)) else bits * 2 ^ (fmt.f - 62)

/-- The 64-entry arctangent table: atan(2^-i) rounded in I1F63, copied from
the convergence tables. -/
def ATAN_TABLE : List Int := [
  7244019458077122842, 4276394391812611793, 2259529351110384995, 1146972379345827555,
  575711906690464370, 288136606096737429, 144103461669513643, 72056128076108985,
  36028613768703709, 18014375603042167, 9007196391431100, 4503599269456606,
  2251799768946007, 1125899901250219, 562949952722261, 281474976623275,
  140737488344405, 70368744176299, 35184372088661, 17592186044395,
  8796093022205, 4398046511104, 2199023255552, 1099511627776,
  549755813888, 274877906944, 137438953472, 68719476736,
  34359738368, 17179869184, 8589934592, 4294967296,
  2147483648, 1073741824, 536870912, 268435456,
  134217728, 67108864, 33554432, 16777216,
  8388608, 4194304, 2097152, 1048576,
  524288, 262144, 131072, 65536,
  32768, 16384, 8192, 4096,
  2048, 1024, 512, 256,
  128, 64, 32, 16,
  8, 4, 2, 1]

/-- The 64-entry hyperbolic arctangent table: atanh(2^-i) rounded in I1F63
(entry j holds atanh(2^-(j+1))), copied from the convergence tables. -/
def ATANH_TABLE : List Int := [
  5066454931323234910, 2355767386976068430, 1158983235132127082, 577213116383417966,
  288324256157907091, 144126917918172051, 72059060107121069, 36028980272579671,
  18014421416026658, 9007202118054161, 4503599985284489, 2251799858424492,
  1125899912435029, 562949954120363, 281474976798037, 140737488366251,
  70368744179029, 35184372089003, 17592186044437, 8796093022211,
  4398046511104, 2199023255552, 1099511627776, 549755813888,
  274877906944, 137438953472, 68719476736, 34359738368,
  17179869184, 8589934592, 4294967296, 2147483648,
  1073741824, 536870912, 268435456, 134217728,
  67108864, 33554432, 16777216, 8388608,
  4194304, 2097152, 1048576, 524288,
  262144, 131072, 65536, 32768,
  16384, 8192, 4096, 2048,
  1024, 512, 256, 128,
  64, 32, 16, 8,
  4, 2, 1, 1]

/-- Inverse circular CORDIC gain 1/K in I1F63 bits. -/
def CIRCULAR_GAIN_INV : Int := 0x4DBA76D421AF2D34

/-- Hyperbolic CORDIC gain K_h in I1F63 bits. -/
def HYPERBOLIC_GAIN : Int := 0x6A01203D99A63986

/-- Inverse hyperbolic CORDIC gain 1/K_h in I2F62 bits. -/
def HYPERBOLIC_GAIN_INV : Int := 0x4D47A1C803BB08CA

/-- atanh(1/2) in I1F63 bits. -/
def ATANH_HALF : Int := 0x464FA9EAB40C2A5E

/-- Fractional part of the hyperbolic convergence limit in I1F63 bits. -/
def HYPERBOLIC_LIMIT_FRAC : Int := 0x0F223D70A3D70A3D

/-- Membership in the hyperbolic repeat set \x7b4, 13, 40, 121, 364\x7d. -/
def needsRepeat (i : Nat) : Bool :=
  i == 4 || i == 13 || i == 40 || i == 121 || i == 364

/-- Table lookup; indices are bounded by the iteration limits. -/
def tableLookup (t : List Int) (i : Nat) : Int := t.getD i 0

/-- One micro-rotation of circular CORDIC in rotation mode at index i:
direction chosen by the sign of z, ties using the non-negative branch. -/
def circRotStep (fmt : Fmt) (s : Int × Int × Int) (i : Nat) : Int × Int × Int :=
  let angle := fromI1F63 fmt (tableLookup ATAN_TABLE i)
  let x := s.1; let y := s.2.1; let z := s.2.2
  if 0 ≤ z then
    (satSub fmt x (shrFx fmt y i), satAdd fmt y (shrFx fmt x i), subFx fmt z angle)
  else
    (satAdd fmt x (shrFx fmt y i), satSub fmt y (shrFx fmt x i), addFx fmt z angle)

/-- Circular CORDIC rotation: min(f, 62) micro-rotations from index 0. -/
def circularRotation (fmt : Fmt) (x y z : Int) : Int × Int × Int :=
  (List.range (Nat.min fmt.f 62)).foldl (circRotStep fmt) (x, y, z)

/-- One micro-rotation of circular CORDIC in vectoring mode at index i:
direction chosen by the sign of y. -/
def circVecStep (fmt : Fmt) (s : Int × Int × Int) (i : Nat) : Int × Int × Int :=
  let angle := fromI1F63 fmt (tableLookup ATAN_TABLE i)
  let x := s.1; let y := s.2.1; let z := s.2.2
  if y < 0 then
    (satSub fmt x (shrFx fmt y i), satAdd fmt y (shrFx fmt x i), subFx fmt z angle)
  else
    (satAdd fmt x (shrFx fmt y i), satSub fmt y (shrFx fmt x i), addFx fmt z angle)

/-- Circular CORDIC vectoring: min(f, 62) micro-rotations from index 0. -/
def circularVectoring (fmt : Fmt) (x y z : Int) : Int × Int × Int :=
  (List.range (Nat.min fmt.f 62)).foldl (circVecStep fmt) (x, y, z)

/-- The control automaton of the hyperbolic kernels, as the sequence of
table indices it visits: n iterations starting from index i, repeating an
index of the repeat set once when the repeated flag is not yet set, and
stopping early at index 64. -/
def hypIndicesAux : Nat → Nat → Bool → List Nat
  | 0, _, _ => []
  | n + 1, i, rep =>
    if i < 64 then
      i :: (if needsRepeat i && !rep then hypIndicesAux n i true
            else hypIndicesAux n (i + 1) false)
    else []

/-- Indices visited by a hyperbolic kernel bounded to n iterations:
start at i = 1 with the repeated flag clear. -/
def hypIndices (n : Nat) : List Nat := hypIndicesAux n 1 false

/-- One hyperbolic pseudo-rotation in rotation mode at index i (the table
entry for index i sits at position i - 1). -/
def hypRotStep (fmt : Fmt) (s : Int × Int × Int) (i : Nat) : Int × Int × Int :=
  let angle := fromI1F63 fmt (tableLookup ATANH_TABLE (i - 1))
  let x := s.1; let y := s.2.1; let z := s.2.2
  if 0 ≤ z then
    (satAdd fmt x (shrFx fmt y i), satAdd fmt y (shrFx fmt x i), subFx fmt z angle)
  else
    (satSub fmt x (shrFx fmt y i), satSub fmt y (shrFx fmt x i), addFx fmt z angle)

/-- Hyperbolic CORDIC rotation: min(f, 54) pseudo-rotations over the index
sequence of the control automaton. -/
def hyperbolicRotation (fmt : Fmt) (x y z : Int) : Int × Int × Int :=
  (hypIndices (Nat.min fmt.f 54)).foldl (hypRotStep fmt) (x, y, z)

/-- One hyperbolic pseudo-rotation in vectoring mode at index i. -/
def hypVecStep (fmt : Fmt) (s : Int × Int × Int) (i : Nat) : Int × Int × Int :=
  let angle := fromI1F63 fmt (tableLookup ATANH_TABLE (i - 1))
  let x := s.1; let y := s.2.1; let z := s.2.2
  if y < 0 then
    (satAdd fmt x (shrFx fmt y i), satAdd fmt y (shrFx fmt x i), subFx fmt z angle)
  else
    (satSub fmt x (shrFx fmt y i), satSub fmt y (shrFx fmt x i), addFx fmt z angle)

/-- Hyperbolic CORDIC vectoring: clamp(f, 24, 54) pseudo-rotations over
the index sequence of the control automaton. -/
def hyperbolicVectoring (fmt : Fmt) (x y z : Int) : Int × Int × Int :=
  (hypIndices (Nat.min (Nat.max fmt.f 24) 54)).foldl (hypVecStep fmt) (x, y, z)

/-- The inverse circular gain constant as a format value. -/
def circularGainInv (fmt : Fmt) : Int := fromI1F63 fmt CIRCULAR_GAIN_INV

/-- The inverse hyperbolic gain constant as a format value. -/
def hyperbolicGainInv (fmt : Fmt) : Int := fromI2F62 fmt HYPERBOLIC_GAIN_INV

/-- The function names that appear in errors of the elementary layer.
The static strings of the implementation are modelled by an enumeration. -/
inductive FnName where
  | asin | acos | atanh | acoth | acosh | ln | log2 | log10 | sqrt
  deriving DecidableEq, Repr

/-- The expected-domain descriptions that appear in domain errors.  Each
constructor stands for one static string of the implementation:
closedUnit for "value in range [-1, 1]", openUnit for
"value in range (-1, 1)", absGtOne for "|value| > 1", atLeastOne for
"value >= 1", positive for "positive value" and nonNegative for
"non-negative value". -/
inductive DomainDesc where
  | closedUnit | openUnit | absGtOne | atLeastOne | positive | nonNegative
  deriving DecidableEq, Repr

/-- The error taxonomy: a domain error naming a function and its expected
domain, or an overflow naming a function. -/
inductive Error where
  | domainError (function : FnName) (expected : DomainDesc)
  | overflow (function : FnName)
  deriving DecidableEq, Repr

/-- The value-or-error outcome of the fallible public functions. -/
inductive FxResult where
  | ok (value : Int)
  | error (e : Error)
  deriving DecidableEq, Repr

/-- Map over the value of a result, leaving an error unchanged. -/
def FxResult.map (g : Int → Int) : FxResult → FxResult
  | .ok v => .ok (g v)
  | .error e => .error e

/-- Checked constructor of NonNegative: some exactly when 0 <= v.  The
wrapper types carry no behaviour, so a bounded value is modelled by its
wrapped bit pattern. -/
def NonNegative.new (_fmt : Fmt) (v : Int) : Option Int :=
  if 0 ≤ v then some v else none

/-- Infallible constructor of NonNegative from 1 + x^2. -/
def NonNegative.onePlusSquare (fmt : Fmt) (x : Int) : Int :=
  satAdd fmt (oneBits fmt) (satMul fmt x x)

/-- Infallible constructor of NonNegative from 1 - x^2 for x in [-1, 1]. -/
def NonNegative.oneMinusSquare (fmt : Fmt) (x : Int) : Int :=
  satSub fmt (oneBits fmt) (satMul fmt x x)

/-- Infallible constructor of NonNegative from x^2 - 1 for x >= 1. -/
def NonNegative.squareMinusOne (fmt : Fmt) (x : Int) : Int :=
  satSub fmt (satMul fmt x x) (oneBits fmt)

/-- Checked constructor of UnitInterval: some exactly when v in [-1, 1]. -/
def UnitInterval.new (fmt : Fmt) (v : Int) : Option Int :=
  if negFx fmt (oneBits fmt) ≤ v ∧ v ≤ oneBits fmt then some v else none

/-- Checked constructor of OpenUnitInterval: some exactly when v in (-1, 1). -/
def OpenUnitInterval.new (fmt : Fmt) (v : Int) : Option Int :=
  if negFx fmt (oneBits fmt) < v ∧ v < oneBits fmt then some v else none

/-- Infallible constructor of OpenUnitInterval from x / sqrt(1 + x^2),
with the square root supplied by the caller. -/
def OpenUnitInterval.fromDivBySqrtOnePlusSquare (fmt : Fmt) (x sqrtOnePlusXSq : Int) : Int :=
  divFx fmt x sqrtOnePlusXSq

/-- Infallible constructor of OpenUnitInterval from sqrt(x^2 - 1) / x for
x >= 1, with the square root supplied by the caller. -/
def OpenUnitInterval.fromSqrtSquareMinusOneDiv (fmt : Fmt) (sqrtXSqMinusOne x : Int) : Int :=
  divFx fmt sqrtXSqMinusOne x

/-- Infallible constructor of OpenUnitInterval from (x - 1) / (x + 1) for
a normalized ln argument x in [0.5, 2]. -/
def OpenUnitInterval.fromNormalizedLnArg (fmt : Fmt) (x : Int) : Int :=
  divFx fmt (subFx fmt x (oneBits fmt)) (addFx fmt x (oneBits fmt))

/-- Checked constructor of AtLeastOne: some exactly when v >= 1. -/
def AtLeastOne.new (fmt : Fmt) (v : Int) : Option Int :=
  if oneBits fmt ≤ v then some v else none

/-- The power-of-two initial-guess refinement loop of sqrt for arguments
above one: shift the test value right by two and the guess left by one
while the test value is at least four, up to 64 times. -/
def sqrtEstLoop (fmt : Fmt) (four : Int) : Nat → Int → Int → Int × Int
  | 0, test, g => (test, g)
  | n + 1, test, g =>
    if four ≤ test then sqrtEstLoop fmt four n (shrFx fmt test 2) (shlFx fmt g 1)
    else (test, g)

/-- The Newton-Raphson loop of sqrt with early exit: n refinement steps
that return early when the step moves the guess by at most epsilon,
followed by one final step. -/
def sqrtNewtonLoop (fmt : Fmt) (x eps : Int) : Nat → Int → Int
  | 0, guess => satMul fmt (satAdd fmt guess (divFx fmt x guess)) (halfBits fmt)
  | n + 1, guess =>
    let q := divFx fmt x guess
    let s := satAdd fmt guess q
    let newGuess := satMul fmt s (halfBits fmt)
    let diff := if guess < newGuess then subFx fmt newGuess guess
                else subFx fmt guess newGuess
    if diff ≤ eps then newGuess else sqrtNewtonLoop fmt x eps n newGuess

/-- Infallible square root on a non-negative wrapped value: special cases
for zero and one, bit-level initial guess, then clamp(f / 2, 8, 20)
Newton-Raphson iterations with early exit against a precision-scaled
epsilon. -/
def sqrtNonneg (fmt : Fmt) (x : Int) : Int :=
  let one := oneBits fmt
  if x = 0 then 0
  else if x = one then one
  else
    let guess :=
      if one < x then
        let four := satMul fmt (twoBits fmt) (twoBits fmt)
        let tg := sqrtEstLoop fmt four 64 x one
        shrFx fmt (satAdd fmt tg.2 (divFx fmt x tg.2)) 1
      else x
    let iterations := Nat.min (Nat.max (fmt.f / 2) 8) 20
    let epsShift := 63 - fmt.f / 2
    let eps := fromI1F63 fmt (wrap64 (2 ^ epsShift))
    sqrtNewtonLoop fmt x eps (iterations - 1) guess

/-- Fallible square root: domain x >= 0 via the NonNegative checked
constructor, signalling a domain error otherwise. -/
def sqrtFx (fmt : Fmt) (x : Int) : FxResult :=
  match NonNegative.new fmt x with
  | some v => .ok (sqrtNonneg fmt v)
  | none => .error (.domainError .sqrt .nonNegative)

/-- The composite sqrt(x^2 - 1) / x constructor chain of acosh: the
x^2 - 1 identity constructor, the canonical square root, then the
dividing OpenUnitInterval constructor; true when the result lies
strictly inside (-1, 1). -/
def sqrtCtorInRange (fmt : Fmt) (x : Int) : Bool :=
  let s := sqrtNonneg fmt (NonNegative.squareMinusOne fmt x)
  let v := OpenUnitInterval.fromSqrtSquareMinusOneDiv fmt s x
  decide (negFx fmt (oneBits fmt) < v) && decide (v < oneBits fmt)

/-- The angle-reduction loops of sin_cos: subtract 2 pi while the angle
exceeds pi, then add 2 pi while it is below -pi, with a single iteration
budget of 64 shared by the two loops.  The budget left by the first loop
is what remains for the second. -/
def sinCosRedDown (fmt : Fmt) (pi twoPi : Int) : Nat → Int → Int × Nat
  | 0, r => (r, 0)
  | n + 1, r =>
    if pi < r then sinCosRedDown fmt pi twoPi n (subFx fmt r twoPi)
    else (r, n + 1)

/-- Second reduction loop of sin_cos (see sinCosRedDown). -/
def sinCosRedUp (fmt : Fmt) (pi twoPi : Int) : Nat → Int → Int
  | 0, r => r
  | n + 1, r =>
    if r < negFx fmt pi then sinCosRedUp fmt pi twoPi n (addFx fmt r twoPi)
    else r

/-- The full angle reduction of sin_cos toward [-pi, pi]. -/
def sinCosReduce (fmt : Fmt) (angle : Int) : Int :=
  let pi := piBits fmt
  let twoPi := addFx fmt pi pi
  let rn := sinCosRedDown fmt pi twoPi 64 angle
  sinCosRedUp fmt pi twoPi rn.2 rn.1

/-- sin_cos: reduce toward [-pi, pi], fold into [-pi/2, pi/2] tracking a
sign flip, then circular rotation from (1/K, 0, reduced). -/
def sinCos (fmt : Fmt) (angle : Int) : Int × Int :=
  let pi := piBits fmt
  let fp2 := fracPi2Bits fmt
  let reduced0 := sinCosReduce fmt angle
  let rn : Int × Bool :=
    if fp2 < reduced0 then (subFx fmt reduced0 pi, true)
    else if reduced0 < negFx fmt fp2 then (addFx fmt reduced0 pi, true)
    else (reduced0, false)
  let r := circularRotation fmt (circularGainInv fmt) 0 rn.1
  if rn.2 then (negFx fmt r.2.1, negFx fmt r.1) else (r.2.1, r.1)

/-- sin as the first component of sin_cos. -/
def sinFx (fmt : Fmt) (angle : Int) : Int := (sinCos fmt angle).1

/-- cos as the second component of sin_cos. -/
def cosFx (fmt : Fmt) (angle : Int) : Int := (sinCos fmt angle).2

/-- atan: zero at zero; for an absolute value above one, reduce through
the reciprocal and subtract the vectoring angle from (sign) pi/2;
otherwise direct circular vectoring from (1, x, 0). -/
def atanFx (fmt : Fmt) (x : Int) : Int :=
  let one := oneBits fmt
  if x = 0 then 0
  else if one < absFx fmt x then
    let recip := divFx fmt one x
    let atanRecip := (circularVectoring fmt one recip 0).2.2
    if 0 < x then subFx fmt (fracPi2Bits fmt) atanRecip
    else subFx fmt (negFx fmt (fracPi2Bits fmt)) atanRecip
  else (circularVectoring fmt one x 0).2.2

/-- asin: domain [-1, 1] with boundary and zero special cases; otherwise
the identity asin x = atan (x / sqrt (1 - x^2)), with a direct pi/2
answer when the square root is too small to divide by.  The square-root
call site resolves to the infallible Newton-Raphson computation. -/
def asinFx (fmt : Fmt) (x : Int) : FxResult :=
  let one := oneBits fmt
  let negOne := negFx fmt one
  if one < x ∨ x < negOne then .error (.domainError .asin .closedUnit)
  else if x = one then .ok (fracPi2Bits fmt)
  else if x = negOne then .ok (negFx fmt (fracPi2Bits fmt))
  else if x = 0 then .ok 0
  else
    let xSq := satMul fmt x x
    let oneMinusXSq := satSub fmt one xSq
    let sqrtTerm := sqrtNonneg fmt oneMinusXSq
    if sqrtTerm < fromI1F63 fmt 281474976710656 then
      if 0 < x then .ok (fracPi2Bits fmt) else .ok (negFx fmt (fracPi2Bits fmt))
    else .ok (atanFx fmt (divFx fmt x sqrtTerm))

/-- acos as pi/2 - asin, propagating the error of asin unchanged. -/
def acosFx (fmt : Fmt) (x : Int) : FxResult :=
  FxResult.map (fun a => subFx fmt (fracPi2Bits fmt) a) (asinFx fmt x)

/-- sinh_cosh with an explicit recursion budget (the halving recursion
strictly shrinks the magnitude of the argument, so a budget of |bits| + 1
is never exhausted; the budget-exhausted value is never reached): beyond
the convergence limit halve, recurse and reconstitute by the double-angle
identities; below the small threshold answer with the Taylor
approximations sinh x = x and cosh x = 1 + x^2 / 2; otherwise hyperbolic
rotation from (1/K_h, 0, x). -/
def sinhCoshAux (fmt : Fmt) : Nat → Int → Int × Int
  | 0, _ => (0, 0)
  | n + 1, x =>
    let one := oneBits fmt
    let limit := satAdd fmt one (fromI1F63 fmt HYPERBOLIC_LIMIT_FRAC)
    if limit < absFx fmt x then
      let sc := sinhCoshAux fmt n (shrFx fmt x 1)
      (satMul fmt (satMul fmt sc.1 sc.2) (twoBits fmt),
       satAdd fmt (satMul fmt sc.2 sc.2) (satMul fmt sc.1 sc.1))
    else if absFx fmt x < smallThreshold fmt then
      (x, satAdd fmt one (shrFx fmt (satMul fmt x x) 1))
    else
      let r := hyperbolicRotation fmt (hyperbolicGainInv fmt) 0 x
      (r.2.1, r.1)

/-- sinh_cosh of the library (see sinhCoshAux for the three regimes). -/
def sinhCosh (fmt : Fmt) (x : Int) : Int × Int := sinhCoshAux fmt (x.natAbs + 1) x

/-- sinh as the first component of sinh_cosh. -/
def sinhFx (fmt : Fmt) (x : Int) : Int := (sinhCosh fmt x).1

/-- cosh as the second component of sinh_cosh. -/
def coshFx (fmt : Fmt) (x : Int) : Int := (sinhCosh fmt x).2

/-- tanh = sinh / cosh. -/
def tanhFx (fmt : Fmt) (x : Int) : Int :=
  let sc := sinhCosh fmt x
  divFx fmt sc.1 sc.2

/-- coth: the maximum representable value at the pole x = 0, otherwise
cosh x / sinh x; an infallible plain value in every case. -/
def cothFx (fmt : Fmt) (x : Int) : Int :=
  if x = 0 then fmt.maxBits
  else
    let sc := sinhCosh fmt x
    divFx fmt sc.2 sc.1

/-- The reduced argument of the atanh argument reduction, computed from
the absolute value of the input exactly as the implementation does:
(|x| - 0.5) / (1 - 0.5 |x|) in saturating fixed-point arithmetic. -/
def atanhReduced (fmt : Fmt) (absX : Int) : Int :=
  divFx fmt (subFx fmt absX (halfBits fmt))
    (subFx fmt (oneBits fmt) (satMul fmt (halfBits fmt) absX))

/-- Inner atanh with an explicit recursion budget (for arguments inside
(-1, 1) the reduction strictly shrinks the magnitude, so a budget of
|bits| + 1 is never exhausted there; see the termination theorems): zero
at zero; direct hyperbolic vectoring from (1, x, 0) for |x| at most 0.75;
otherwise the reduction atanh x = sign * (atanh 0.5 + atanh ((|x| - 0.5)
/ (1 - 0.5 |x|))). -/
def atanhInnerAux (fmt : Fmt) : Nat → Int → Int
  | 0, _ => 0
  | n + 1, x =>
    let one := oneBits fmt
    if x = 0 then 0
    else
      let threshold := fromNumFrac fmt 3 4
      if absFx fmt x ≤ threshold then (hyperbolicVectoring fmt one x 0).2.2
      else
        let atanhHalf := fromI1F63 fmt ATANH_HALF
        let sign := if isNeg x then negFx fmt one else one
        let reduced := atanhReduced fmt (absFx fmt x)
        satMul fmt sign (satAdd fmt atanhHalf (atanhInnerAux fmt n reduced))

/-- atanh_inner of the library (see atanhInnerAux). -/
def atanhInner (fmt : Fmt) (x : Int) : Int := atanhInnerAux fmt (x.natAbs + 1) x

/-- atanh: domain (-1, 1), then atanh_inner. -/
def atanhFx (fmt : Fmt) (x : Int) : FxResult :=
  let one := oneBits fmt
  if one ≤ x ∨ x ≤ negFx fmt one then .error (.domainError .atanh .openUnit)
  else .ok (atanhInner fmt x)

/-- asinh: zero at zero, otherwise atanh (x / sqrt (1 + x^2)).  The
square-root call site resolves to the infallible computation. -/
def asinhFx (fmt : Fmt) (x : Int) : Int :=
  if x = 0 then 0
  else
    let one := oneBits fmt
    let onePlusXSq := satAdd fmt one (satMul fmt x x)
    let sqrtTerm := sqrtNonneg fmt onePlusXSq
    atanhInner fmt (divFx fmt x sqrtTerm)

/-- acosh: domain x >= 1, zero at one, otherwise
atanh (sqrt (x^2 - 1) / x). -/
def acoshFx (fmt : Fmt) (x : Int) : FxResult :=
  let one := oneBits fmt
  if x < one then .error (.domainError .acosh .atLeastOne)
  else if x = one then .ok 0
  else
    let xSqMinusOne := satSub fmt (satMul fmt x x) one
    let sqrtTerm := sqrtNonneg fmt xSqMinusOne
    .ok (atanhInner fmt (divFx fmt sqrtTerm x))

/-- acoth: domain |x| > 1, then atanh (1 / x). -/
def acothFx (fmt : Fmt) (x : Int) : FxResult :=
  let one := oneBits fmt
  if absFx fmt x ≤ one then .error (.domainError .acoth .absGtOne)
  else .ok (atanhInner fmt (divFx fmt one x))

/-- The positive reduction loop of exp: subtract ln 2 and double the
scale factor (with the plain, wrapping addition of the implementation)
while the reduced argument exceeds ln 2, with an iteration budget. -/
def expRedPos (fmt : Fmt) (ln2 : Int) : Nat → Int → Int → Int × Int
  | 0, r, scale => (r, scale)
  | n + 1, r, scale =>
    if ln2 < r then expRedPos fmt ln2 n (subFx fmt r ln2) (addFx fmt scale scale)
    else (r, scale)

/-- The negative reduction loop of exp: add ln 2 and halve the scale
factor while the reduced argument is below -ln 2. -/
def expRedNeg (fmt : Fmt) (ln2 : Int) : Nat → Int → Int → Int × Int
  | 0, r, scale => (r, scale)
  | n + 1, r, scale =>
    if r < negFx fmt ln2 then expRedNeg fmt ln2 n (addFx fmt r ln2) (shrFx fmt scale 1)
    else (r, scale)

/-- exp: one at zero; for |x| above 2 ln 2, reduce by multiples of ln 2
tracking a power-of-two scale factor (budget 128) and multiply the scale
back at the end; otherwise directly cosh x + sinh x. -/
def expFx (fmt : Fmt) (x : Int) : Int :=
  let one := oneBits fmt
  let ln2 := ln2Bits fmt
  if x = 0 then one
  else
    let threshold := addFx fmt ln2 ln2
    if threshold < absFx fmt x then
      let rs :=
        if isPos x then expRedPos fmt ln2 128 x one
        else expRedNeg fmt ln2 128 x one
      let sc := sinhCosh fmt rs.1
      satMul fmt rs.2 (satAdd fmt sc.2 sc.1)
    else
      let sc := sinhCosh fmt x
      satAdd fmt sc.2 sc.1

/-- The halving normalization loop of ln for large arguments: shift right
and add ln 2 to the accumulator while the value exceeds two. -/
def lnRedDown (fmt : Fmt) (ln2 two : Int) : Nat → Int → Int → Int × Int × Nat
  | 0, v, k => (v, k, 0)
  | n + 1, v, k =>
    if two < v then lnRedDown fmt ln2 two n (shrFx fmt v 1) (addFx fmt k ln2)
    else (v, k, n + 1)

/-- The doubling normalization loop of ln for small arguments: double and
subtract ln 2 from the accumulator while the value is below one half. -/
def lnRedUp (fmt : Fmt) (ln2 half : Int) : Nat → Int → Int → Int × Int
  | 0, v, k => (v, k)
  | n + 1, v, k =>
    if v < half then lnRedUp fmt ln2 half n (addFx fmt v v) (subFx fmt k ln2)
    else (v, k)

/-- ln: domain x > 0, zero at one; normalize into [0.5, 2] with a shared
iteration budget of 128 while accumulating multiples of ln 2, then
ln v = 2 * atanh ((v - 1) / (v + 1)) plus the accumulator.  The checked
atanh of the implementation always succeeds here and its defensive
fallback of zero is unreachable, so the atanh value is taken directly
from the inner computation on the in-range reduced argument. -/
def lnFx (fmt : Fmt) (x : Int) : FxResult :=
  let one := oneBits fmt
  if x ≤ 0 then .error (.domainError .ln .positive)
  else if x = one then .ok 0
  else
    let ln2 := ln2Bits fmt
    let vkn := lnRedDown fmt ln2 (twoBits fmt) 128 x 0
    let vk := lnRedUp fmt ln2 (halfBits fmt) vkn.2.2 vkn.1 vkn.2.1
    let arg := divFx fmt (subFx fmt vk.1 one) (addFx fmt vk.1 one)
    let atanhVal := if one ≤ arg ∨ arg ≤ negFx fmt one then 0 else atanhInner fmt arg
    .ok (addFx fmt (addFx fmt atanhVal atanhVal) vk.2)

/-- log2 = ln x / ln 2, propagating the error of ln unchanged. -/
def log2Fx (fmt : Fmt) (x : Int) : FxResult :=
  FxResult.map (fun lnX => divFx fmt lnX (ln2Bits fmt)) (lnFx fmt x)

/-- log10 = ln x / ln 10, propagating the error of ln unchanged. -/
def log10Fx (fmt : Fmt) (x : Int) : FxResult :=
  FxResult.map (fun lnX => divFx fmt lnX (ln10Bits fmt)) (lnFx fmt x)


/-- Modelled from the spec: the 5th-order Taylor polynomial for sinh that
section 4.5 prescribes for small arguments on high-precision types,
x + x^3/6 + x^5/120, evaluated with the library's saturating products and
division; the implementation has no such polynomial, so this definition
exists only to be compared with the code's small-argument answer. -/
def sinhTaylor5 (fmt : Fmt) (x : Int) : Int :=
  let x2 := satMul fmt x x
  let x3 := satMul fmt x2 x
  let x5 := satMul fmt x3 x2
  satAdd fmt (satAdd fmt x (divFx fmt x3 (fromNumFrac fmt 6 1)))
    (divFx fmt x5 (fromNumFrac fmt 120 1))

/-- C2: the angle reduction of sin_cos is a subtraction loop capped at 64
iterations, not a quotient-based reduction: the I16F16 angle 500 (bit
pattern 32768000) is left at bit pattern 6414464 (about 97.88 radians),
which still exceeds pi (bit pattern 205887), after exactly 64
subtractions of 2 pi; the claim promises reduction into [-pi, pi] for
every input. -/
theorem C2_reduction_not_into_pi_range :
    sinCosReduce i16f16 32768000 = 6414464 ∧
    piBits i16f16 = 205887 ∧
    (205887 : Int) < 6414464 ∧
    (32768000 : Int) - 6414464 = 64 * (2 * 205887) := by
  refine ⟨by decide, by decide, by decide, by decide⟩

/-- C3: exp does not saturate when the power-of-two scale factor leaves
the representable range: at I16F16 input 20 (bit pattern 1310720) the
scale factor is doubled 28 times with the plain wrapping addition, wraps
to zero, and exp returns 0 instead of the maximum representable value. -/
theorem C3_exp_wraps_to_zero :
    expFx i16f16 1310720 = 0 ∧ (0 : Int) ≠ i16f16.maxBits := by
  refine ⟨by decide, by decide⟩

/-- C6: evaluation of coth at the failing input 0: the code returns the
plain numeric value T::MAX with no value-or-error outcome, while the
claim (and the repository's own test coth_at_zero) expects a Result that
is an error at the pole. -/
theorem C6_coth_zero_plain_max : cothFx i16f16 0 = i16f16.maxBits := by decide

/-- C10: coth returns the maximum representable value at 0 and otherwise
cosh x / sinh x computed from the single sinh_cosh evaluation; it is an
infallible plain value for every input. -/
theorem C10_coth_shape :
    (∀ (fmt : Fmt) (x : Int),
      cothFx fmt x =
        if x = 0 then fmt.maxBits
        else divFx fmt (sinhCosh fmt x).2 (sinhCosh fmt x).1) ∧
    cothFx i16f16 0 = 2147483647 := by
  refine ⟨fun fmt x => rfl, by decide⟩

/-- C5 counterexample: a format with 42 fractional bits (I22F42 is a
valid instantiation) bounds the hyperbolic kernels to min(42, 54) = 42
iterations, and the iteration budget expires right after the first
execution of repeat index 40: the kernels reach index 40 but execute it
once, not twice. -/
theorem C5_repeat_cut_at_budget :
    Nat.min i22f42.f 54 = 42 ∧
    40 ∈ hypIndices 42 ∧
    (hypIndices 42).count 40 = 1 := by
  refine ⟨by decide, by decide, by decide⟩

/-- C5 amended: the hyperbolic kernels fold over the index sequence of
the control automaton with bounds min(f, 54) for rotation and
clamp(f, 24, 54) for vectoring; the sequence starts at index 1, every
bounded sequence is a prefix of the full 54-step sequence, the full
sequence executes exactly the repeat indices 4, 13 and 40 twice and
every other visited index once; a budget may cut the second execution of
a repeat index (see the counterexample). -/
theorem C5_kernel_iteration_structure :
    (∀ (fmt : Fmt) (x y z : Int),
      hyperbolicRotation fmt x y z =
        (hypIndices (Nat.min fmt.f 54)).foldl (hypRotStep fmt) (x, y, z)) ∧
    (∀ (fmt : Fmt) (x y z : Int),
      hyperbolicVectoring fmt x y z =
        (hypIndices (Nat.min (Nat.max fmt.f 24) 54)).foldl (hypVecStep fmt) (x, y, z)) ∧
    hypIndices 54 =
      [1, 2, 3, 4, 4, 5, 6, 7, 8, 9, 10, 11, 12, 13, 13,
       14, 15, 16, 17, 18, 19, 20, 21, 22, 23, 24, 25, 26, 27, 28, 29, 30,
       31, 32, 33, 34, 35, 36, 37, 38, 39, 40, 40,
       41, 42, 43, 44, 45, 46, 47, 48, 49, 50, 51] ∧
    ((List.range 55).all (fun n => hypIndices n == (hypIndices 54).take n)) = true ∧
    (hypIndices 54).head? = some 1 ∧
    (hypIndices 54).count 4 = 2 ∧
    (hypIndices 54).count 13 = 2 ∧
    (hypIndices 54).count 40 = 2 ∧
    ((hypIndices 54).filter
        (fun j => !(j == 4 || j == 13 || j == 40))).all
      (fun j => (hypIndices 54).count j == 1) = true := by
  refine ⟨fun fmt x y z => rfl, fun fmt x y z => rfl, by decide, by decide,
    by decide, by decide, by decide, by decide, by decide⟩

/-- C7 counterexample: the infallible OpenUnitInterval constructor from
x / sqrt(1 + x^2) violates the open-unit-interval predicate once 1 + x^2
saturates: at I16F16 x = 200 (bit pattern 13107200), 1 + x^2 clamps to
the maximum, its square root is about 181.02, and the wrapped value is
bit pattern 72407, about 1.105, which is not below one. -/
theorem C7_sqrt_constructor_escapes_interval :
    OpenUnitInterval.fromDivBySqrtOnePlusSquare i16f16 13107200
        (sqrtNonneg i16f16 (NonNegative.onePlusSquare i16f16 13107200)) = 72407 ∧
    oneBits i16f16 < 72407 := by
  refine ⟨by decide, by decide⟩

/-- C4 counterexample: for a format with 24 fractional bits and input
0.04 (I8F24 bit pattern 671089, below the claimed 0.05 threshold for
high-precision types) sinh_cosh answers with the first-order value
sinh x = x exactly, which no 5th-order Taylor evaluation matches: the
spec-modelled polynomial differs from x by 178 bits because the cubic
term alone is about 178 units in the last place. -/
theorem C4_taylor_is_low_order :
    (sinhCosh i8f24 671089).1 = 671089 ∧
    sinhTaylor5 i8f24 671089 = 671267 ∧
    (671267 : Int) ≠ 671089 := by
  refine ⟨by decide, by decide, by decide⟩

/-- C9 counterexample: asin is not non-decreasing on its domain: at the
adjacent in-domain I16F16 inputs with bit patterns 7004 and 7005 the
value strictly decreases. -/
theorem C9_asin_not_monotone :
    asinFx i16f16 7004 = .ok 7018 ∧
    asinFx i16f16 7005 = .ok 7014 ∧
    (7014 : Int) < 7018 := by
  refine ⟨by decide, by decide, by decide⟩

set_option maxHeartbeats 8000000 in
/-- C9 amended: monotonicity fails for exp, ln, atan and asin: each has
adjacent in-domain inputs where the value strictly decreases, exp
catastrophically so through the wrapping scale factor (exp 20 = 0 while
exp 1 is about 2.72 on I16F16); only sqrt survives, verified
non-decreasing on the exhaustive prefix of bit patterns 0..512. -/
theorem C9_monotonicity_status :
    expFx i16f16 1310720 = 0 ∧
    expFx i16f16 65536 = 178150 ∧ (0 : Int) < 178150 ∧
    lnFx i16f16 65540 = .ok 10 ∧ lnFx i16f16 65541 = .ok 2 ∧ (2 : Int) < 10 ∧
    atanFx i16f16 7860 = 7826 ∧ atanFx i16f16 7861 = 7824 ∧ (7824 : Int) < 7826 ∧
    asinFx i16f16 7804 = .ok 7826 ∧ asinFx i16f16 7805 = .ok 7824 ∧
    ((List.range 512).all
      (fun i => decide (sqrtNonneg i16f16 (Int.ofNat i) ≤
                        sqrtNonneg i16f16 (Int.ofNat i + 1)))) = true := by
  refine ⟨by decide, by decide, by decide, by decide, by decide, by decide,
    by decide, by decide, by decide, by decide, by decide, by decide⟩


/-! Arithmetic-layer lemmas used by the generic theorems. -/

/-- Two to any power is positive. -/
lemma two_pow_pos (n : Nat) : (0 : Int) < 2 ^ n := by positivity

/-- The maximum bit pattern is non-negative. -/
lemma maxBits_nonneg (fmt : Fmt) : 0 ≤ fmt.maxBits := by
  have := two_pow_pos (fmt.w - 1); unfold Fmt.maxBits; omega

/-- The minimum bit pattern is negative. -/
lemma minBits_neg (fmt : Fmt) : fmt.minBits < 0 := by
  have := two_pow_pos (fmt.w - 1); unfold Fmt.minBits; omega

/-- Clamping preserves values already in range. -/
lemma satv_eq (fmt : Fmt) (v : Int) (h1 : fmt.minBits ≤ v) (h2 : v ≤ fmt.maxBits) :
    satv fmt v = v := by
  unfold satv; split_ifs <;> omega

/-- Clamping a non-negative value stays non-negative. -/
lemma satv_nonneg (fmt : Fmt) (v : Int) (h : 0 ≤ v) : 0 ≤ satv fmt v := by
  have h1 := maxBits_nonneg fmt
  have h2 := minBits_neg fmt
  unfold satv; split_ifs <;> omega

/-- Clamping respects an upper bound dominating the minimum. -/
lemma satv_le (fmt : Fmt) (v c : Int) (h1 : v ≤ c) (h2 : fmt.minBits ≤ c) :
    satv fmt v ≤ c := by
  unfold satv; split_ifs <;> omega

/-- Clamping respects a lower bound dominated by the maximum. -/
lemma le_satv (fmt : Fmt) (v c : Int) (h1 : c ≤ v) (h2 : c ≤ fmt.maxBits) :
    c ≤ satv fmt v := by
  have h2m := minBits_neg fmt
  unfold satv; split_ifs <;> omega

/-- Halving the width exponent: 2^(w-1) + 2^(w-1) = 2^w for positive w. -/
lemma two_pow_split (w : Nat) (h : 1 ≤ w) : (2:Int) ^ (w - 1) + 2 ^ (w - 1) = 2 ^ w := by
  have hw : w - 1 + 1 = w := by omega
  calc (2:Int) ^ (w - 1) + 2 ^ (w - 1) = 2 ^ (w - 1) * 2 := by ring
    _ = 2 ^ (w - 1 + 1) := by rw [pow_succ]
    _ = 2 ^ w := by rw [hw]

/-- Wrap-around preserves values already in range (for positive width). -/
lemma wrapv_eq (fmt : Fmt) (v : Int) (hw : 1 ≤ fmt.w)
    (h1 : fmt.minBits ≤ v) (h2 : v ≤ fmt.maxBits) : wrapv fmt v = v := by
  have hp := two_pow_pos (fmt.w - 1)
  have hsplit := two_pow_split fmt.w hw
  unfold Fmt.minBits at h1
  unfold Fmt.maxBits at h2
  unfold wrapv
  have hmod : (v + 2 ^ (fmt.w - 1)) % 2 ^ fmt.w = v + 2 ^ (fmt.w - 1) :=
    Int.emod_eq_of_lt (by omega) (by omega)
  omega

/-- Monotone version of power inequality on base two. -/
lemma two_pow_le_two_pow (m n : Nat) (h : m ≤ n) : (2:Int) ^ m ≤ 2 ^ n :=
  pow_le_pow_right₀ (by norm_num) h

/-! Error-shape lemmas for the fallible public functions: each function
either answers a value on its domain or the one specific domain error
off it. -/

/-- asin: a value on [-1, 1] and the asin domain error off it. -/
lemma asin_shape (fmt : Fmt) (x : Int) :
    (¬(oneBits fmt < x ∨ x < negFx fmt (oneBits fmt)) ∧ ∃ v, asinFx fmt x = .ok v) ∨
    ((oneBits fmt < x ∨ x < negFx fmt (oneBits fmt)) ∧
      asinFx fmt x = .error (.domainError .asin .closedUnit)) := by
  by_cases h : oneBits fmt < x ∨ x < negFx fmt (oneBits fmt)
  · right
    refine ⟨h, ?_⟩
    simp only [asinFx]
    rw [if_pos h]
  · left
    refine ⟨h, ?_⟩
    simp only [asinFx]
    rw [if_neg h]
    split_ifs <;> exact ⟨_, rfl⟩

/-- acos inherits the shape of asin, including the error that names asin. -/
lemma acos_shape (fmt : Fmt) (x : Int) :
    (¬(oneBits fmt < x ∨ x < negFx fmt (oneBits fmt)) ∧ ∃ v, acosFx fmt x = .ok v) ∨
    ((oneBits fmt < x ∨ x < negFx fmt (oneBits fmt)) ∧
      acosFx fmt x = .error (.domainError .asin .closedUnit)) := by
  rcases asin_shape fmt x with ⟨h, v, hv⟩ | ⟨h, hv⟩
  · left
    exact ⟨h, subFx fmt (fracPi2Bits fmt) v, by simp only [acosFx, hv, FxResult.map]⟩
  · right
    exact ⟨h, by simp only [acosFx, hv, FxResult.map]⟩

/-- atanh: a value on (-1, 1) and the atanh domain error off it. -/
lemma atanh_shape (fmt : Fmt) (x : Int) :
    (¬(oneBits fmt ≤ x ∨ x ≤ negFx fmt (oneBits fmt)) ∧ ∃ v, atanhFx fmt x = .ok v) ∨
    ((oneBits fmt ≤ x ∨ x ≤ negFx fmt (oneBits fmt)) ∧
      atanhFx fmt x = .error (.domainError .atanh .openUnit)) := by
  by_cases h : oneBits fmt ≤ x ∨ x ≤ negFx fmt (oneBits fmt)
  · right; exact ⟨h, by simp only [atanhFx]; rw [if_pos h]⟩
  · left; exact ⟨h, _, by simp only [atanhFx]; rw [if_neg h]⟩

/-- acoth: a value for |x| > 1 and the acoth domain error otherwise. -/
lemma acoth_shape (fmt : Fmt) (x : Int) :
    (¬(absFx fmt x ≤ oneBits fmt) ∧ ∃ v, acothFx fmt x = .ok v) ∨
    (absFx fmt x ≤ oneBits fmt ∧
      acothFx fmt x = .error (.domainError .acoth .absGtOne)) := by
  by_cases h : absFx fmt x ≤ oneBits fmt
  · right; exact ⟨h, by simp only [acothFx]; rw [if_pos h]⟩
  · left; exact ⟨h, _, by simp only [acothFx]; rw [if_neg h]⟩

/-- acosh: a value for x >= 1 and the acosh domain error below. -/
lemma acosh_shape (fmt : Fmt) (x : Int) :
    (¬(x < oneBits fmt) ∧ ∃ v, acoshFx fmt x = .ok v) ∨
    (x < oneBits fmt ∧ acoshFx fmt x = .error (.domainError .acosh .atLeastOne)) := by
  by_cases h : x < oneBits fmt
  · right; exact ⟨h, by simp only [acoshFx]; rw [if_pos h]⟩
  · left
    refine ⟨h, ?_⟩
    simp only [acoshFx]
    rw [if_neg h]
    split_ifs <;> exact ⟨_, rfl⟩

/-- ln: a value for x > 0 and the ln domain error otherwise. -/
lemma ln_shape (fmt : Fmt) (x : Int) :
    (¬(x ≤ 0) ∧ ∃ v, lnFx fmt x = .ok v) ∨
    (x ≤ 0 ∧ lnFx fmt x = .error (.domainError .ln .positive)) := by
  by_cases h : x ≤ 0
  · right; exact ⟨h, by simp only [lnFx]; rw [if_pos h]⟩
  · left
    refine ⟨h, ?_⟩
    simp only [lnFx]
    rw [if_neg h]
    split_ifs <;> exact ⟨_, rfl⟩

/-- log2 inherits the shape of ln, including the error that names ln. -/
lemma log2_shape (fmt : Fmt) (x : Int) :
    (¬(x ≤ 0) ∧ ∃ v, log2Fx fmt x = .ok v) ∨
    (x ≤ 0 ∧ log2Fx fmt x = .error (.domainError .ln .positive)) := by
  rcases ln_shape fmt x with ⟨h, v, hv⟩ | ⟨h, hv⟩
  · left; exact ⟨h, divFx fmt v (ln2Bits fmt), by simp only [log2Fx, hv, FxResult.map]⟩
  · right; exact ⟨h, by simp only [log2Fx, hv, FxResult.map]⟩

/-- log10 inherits the shape of ln, including the error that names ln. -/
lemma log10_shape (fmt : Fmt) (x : Int) :
    (¬(x ≤ 0) ∧ ∃ v, log10Fx fmt x = .ok v) ∨
    (x ≤ 0 ∧ log10Fx fmt x = .error (.domainError .ln .positive)) := by
  rcases ln_shape fmt x with ⟨h, v, hv⟩ | ⟨h, hv⟩
  · left; exact ⟨h, divFx fmt v (ln10Bits fmt), by simp only [log10Fx, hv, FxResult.map]⟩
  · right; exact ⟨h, by simp only [log10Fx, hv, FxResult.map]⟩

/-- sqrt: a value for x >= 0 and the sqrt domain error below. -/
lemma sqrt_shape (fmt : Fmt) (x : Int) :
    (¬(x < 0) ∧ ∃ v, sqrtFx fmt x = .ok v) ∨
    (x < 0 ∧ sqrtFx fmt x = .error (.domainError .sqrt .nonNegative)) := by
  by_cases h : 0 ≤ x
  · left
    refine ⟨by omega, ?_⟩
    simp only [sqrtFx, NonNegative.new]
    rw [if_pos h]
    exact ⟨_, rfl⟩
  · right
    refine ⟨by omega, ?_⟩
    simp only [sqrtFx, NonNegative.new]
    rw [if_neg h]

/-- C1 counterexample: the DomainError of acos at 1.5 names asin, not
acos, because acos delegates to asin; the DomainError of log2 at 0 names
ln, not log2, because log2 delegates to ln. -/
theorem C1_delegated_error_names :
    acosFx i16f16 98304 = .error (.domainError .asin .closedUnit) ∧
    FnName.asin ≠ FnName.acos ∧
    log2Fx i16f16 0 = .error (.domainError .ln .positive) ∧
    FnName.ln ≠ FnName.log2 := by
  refine ⟨by decide, by decide, by decide, by decide⟩

/-- C1 amended: every fallible public function returns a value exactly on
its domain and one fixed DomainError off it; asin, atanh, acoth, acosh,
ln and sqrt name themselves with their expected-domain description,
while acos propagates the error of asin (naming asin, range [-1, 1]) and
log2 and log10 propagate the error of ln (naming ln, positive value). -/
theorem C1_domain_error_policy (fmt : Fmt) (x : Int) :
    ((¬(oneBits fmt < x ∨ x < negFx fmt (oneBits fmt)) ∧ ∃ v, asinFx fmt x = .ok v) ∨
     ((oneBits fmt < x ∨ x < negFx fmt (oneBits fmt)) ∧
       asinFx fmt x = .error (.domainError .asin .closedUnit))) ∧
    ((¬(oneBits fmt < x ∨ x < negFx fmt (oneBits fmt)) ∧ ∃ v, acosFx fmt x = .ok v) ∨
     ((oneBits fmt < x ∨ x < negFx fmt (oneBits fmt)) ∧
       acosFx fmt x = .error (.domainError .asin .closedUnit))) ∧
    ((¬(oneBits fmt ≤ x ∨ x ≤ negFx fmt (oneBits fmt)) ∧ ∃ v, atanhFx fmt x = .ok v) ∨
     ((oneBits fmt ≤ x ∨ x ≤ negFx fmt (oneBits fmt)) ∧
       atanhFx fmt x = .error (.domainError .atanh .openUnit))) ∧
    ((¬(absFx fmt x ≤ oneBits fmt) ∧ ∃ v, acothFx fmt x = .ok v) ∨
     (absFx fmt x ≤ oneBits fmt ∧
       acothFx fmt x = .error (.domainError .acoth .absGtOne))) ∧
    ((¬(x < oneBits fmt) ∧ ∃ v, acoshFx fmt x = .ok v) ∨
     (x < oneBits fmt ∧ acoshFx fmt x = .error (.domainError .acosh .atLeastOne))) ∧
    ((¬(x ≤ 0) ∧ ∃ v, lnFx fmt x = .ok v) ∨
     (x ≤ 0 ∧ lnFx fmt x = .error (.domainError .ln .positive))) ∧
    ((¬(x ≤ 0) ∧ ∃ v, log2Fx fmt x = .ok v) ∨
     (x ≤ 0 ∧ log2Fx fmt x = .error (.domainError .ln .positive))) ∧
    ((¬(x ≤ 0) ∧ ∃ v, log10Fx fmt x = .ok v) ∨
     (x ≤ 0 ∧ log10Fx fmt x = .error (.domainError .ln .positive))) ∧
    ((¬(x < 0) ∧ ∃ v, sqrtFx fmt x = .ok v) ∨
     (x < 0 ∧ sqrtFx fmt x = .error (.domainError .sqrt .nonNegative))) :=
  ⟨asin_shape fmt x, acos_shape fmt x, atanh_shape fmt x, acoth_shape fmt x,
   acosh_shape fmt x, ln_shape fmt x, log2_shape fmt x, log10_shape fmt x,
   sqrt_shape fmt x⟩


/-! Lemmas about the named constants. -/

/-- rneFrac never exceeds the floored quotient by more than one. -/
lemma rneFrac_le_fdiv_add_one (n d : Int) : rneFrac n d ≤ n.fdiv d + 1 := by
  simp only [rneFrac]; split_ifs <;> omega

/-- rneFrac is at least the floored quotient. -/
lemma fdiv_le_rneFrac (n d : Int) : n.fdiv d ≤ rneFrac n d := by
  simp only [rneFrac]; split_ifs <;> omega

/-- The sinh_cosh small-argument threshold (from_num 0.1) is at most one. -/
lemma smallThreshold_le_one (fmt : Fmt) : smallThreshold fmt ≤ oneBits fmt := by
  have hP := two_pow_pos fmt.f
  have hle := rneFrac_le_fdiv_add_one ((3602879701896397 : Int) * 2 ^ fmt.f) ((2:Int) ^ 55)
  have heq : ((3602879701896397 : Int) * 2 ^ fmt.f).fdiv ((2:Int) ^ 55) =
      (3602879701896397 : Int) * 2 ^ fmt.f / 2 ^ 55 :=
    Int.fdiv_eq_ediv _ (by positivity)
  have hD : (2:Int) ^ 55 = 36028797018963968 := by norm_num
  have hdm := Int.ediv_add_emod ((3602879701896397 : Int) * 2 ^ fmt.f) 36028797018963968
  have hm1 : 0 ≤ (3602879701896397 : Int) * 2 ^ fmt.f % 36028797018963968 :=
    Int.emod_nonneg _ (by norm_num)
  have hm2 : (3602879701896397 : Int) * 2 ^ fmt.f % 36028797018963968 < 36028797018963968 :=
    Int.emod_lt_of_pos _ (by norm_num)
  unfold smallThreshold fromNumFrac oneBits
  rw [hD] at hle heq ⊢
  omega

/-- Conversions from I1F63 preserve non-negativity. -/
lemma fromI1F63_nonneg (fmt : Fmt) (b : Int) (hb : 0 ≤ b) : 0 ≤ fromI1F63 fmt b := by
  unfold fromI1F63
  split_ifs
  · exact Int.fdiv_nonneg hb (by positivity)
  · positivity

/-- Two to the f + 2 fits under two to the w - 1 for valid formats. -/
lemma two_pow_f_add_two_le (fmt : Fmt) (hv : fmt.Valid) :
    (2:Int) ^ (fmt.f + 2) ≤ 2 ^ (fmt.w - 1) :=
  two_pow_le_two_pow _ _ (by rcases hv with ⟨_, h⟩; omega)

/-- One is representable for valid formats. -/
lemma one_le_maxBits (fmt : Fmt) (hv : fmt.Valid) : oneBits fmt ≤ fmt.maxBits := by
  have h2 := two_pow_f_add_two_le fmt hv
  have h3 : (2:Int) ^ (fmt.f + 2) = 4 * 2 ^ fmt.f := by ring
  have hP := two_pow_pos fmt.f
  unfold oneBits Fmt.maxBits
  omega

/-- Three times one is representable for valid formats. -/
lemma three_one_le_maxBits (fmt : Fmt) (hv : fmt.Valid) :
    3 * oneBits fmt ≤ fmt.maxBits := by
  have h2 := two_pow_f_add_two_le fmt hv
  have h3 : (2:Int) ^ (fmt.f + 2) = 4 * 2 ^ fmt.f := by ring
  have hP := two_pow_pos fmt.f
  unfold oneBits Fmt.maxBits
  omega

/-- The hyperbolic convergence limit is at least one for valid formats. -/
lemma one_le_hyperbolic_limit (fmt : Fmt) (hv : fmt.Valid) :
    oneBits fmt ≤ satAdd fmt (oneBits fmt) (fromI1F63 fmt HYPERBOLIC_LIMIT_FRAC) := by
  apply le_satv
  · have := fromI1F63_nonneg fmt HYPERBOLIC_LIMIT_FRAC (by norm_num [HYPERBOLIC_LIMIT_FRAC])
    omega
  · exact one_le_maxBits fmt hv

/-- C4 amended: for every format and every x with |x| below the
small-argument threshold -- which is from_num 0.1 for all precisions, not
a precision-dependent 0.05 -- sinh_cosh answers the low-order Taylor
values sinh x = x and cosh x = 1 + x^2/2 (1st/2nd order for all
precisions) without running the hyperbolic CORDIC kernel. -/
theorem C4_small_argument_taylor (fmt : Fmt) (hv : fmt.Valid) (x : Int)
    (hx : absFx fmt x < smallThreshold fmt) :
    sinhCosh fmt x = (x, satAdd fmt (oneBits fmt) (shrFx fmt (satMul fmt x x) 1)) := by
  have h1 : absFx fmt x < oneBits fmt :=
    lt_of_lt_of_le hx (smallThreshold_le_one fmt)
  have h2 := one_le_hyperbolic_limit fmt hv
  show sinhCoshAux fmt (x.natAbs + 1) x = _
  rw [sinhCoshAux]
  rw [if_neg (by omega), if_pos hx]

/-- C4 witness: the I8F24 input 0.04 is below the threshold and receives
the Taylor answer. -/
theorem C4_small_argument_taylor_witness :
    i8f24.Valid ∧ absFx i8f24 671089 < smallThreshold i8f24 ∧
    sinhCosh i8f24 671089 = (671089, 16790637) := by
  refine ⟨by decide, by decide, ?_⟩
  have h := C4_small_argument_taylor i8f24 (by decide) 671089 (by decide)
  rw [h]
  decide


/-! Lemmas for the bounded value types. -/

/-- Negating one is exact for valid formats. -/
lemma negFx_one (fmt : Fmt) (hv : fmt.Valid) :
    negFx fmt (oneBits fmt) = -(oneBits fmt) := by
  have h1 : (2:Int) ^ fmt.f ≤ 2 ^ (fmt.w - 1) :=
    two_pow_le_two_pow _ _ (by rcases hv with ⟨_, h⟩; omega)
  have h2 := two_pow_pos fmt.f
  have h3 := maxBits_nonneg fmt
  have hone : oneBits fmt = 2 ^ fmt.f := rfl
  have hmind : fmt.minBits = -(2 ^ (fmt.w - 1)) := rfl
  unfold negFx
  rw [wrapv_eq fmt _ (by rcases hv with ⟨_, h⟩; omega) (by omega) (by omega)]

/-- A saturating square is non-negative. -/
lemma satMul_self_nonneg (fmt : Fmt) (x : Int) : 0 ≤ satMul fmt x x :=
  satv_nonneg fmt _ (Int.fdiv_nonneg (mul_self_nonneg x) (by positivity))

/-- The checked NonNegative constructor succeeds exactly on 0 ≤ v. -/
lemma nonNegative_new_shape (fmt : Fmt) (x : Int) :
    (NonNegative.new fmt x = some x ∧ 0 ≤ x) ∨
    (NonNegative.new fmt x = none ∧ x < 0) := by
  by_cases h : 0 ≤ x
  · left; exact ⟨by simp [NonNegative.new, h], h⟩
  · right; exact ⟨by simp [NonNegative.new, h], by omega⟩

/-- The checked UnitInterval constructor succeeds exactly on [-1, 1]. -/
lemma unitInterval_new_shape (fmt : Fmt) (x : Int) :
    (UnitInterval.new fmt x = some x ∧
      negFx fmt (oneBits fmt) ≤ x ∧ x ≤ oneBits fmt) ∨
    (UnitInterval.new fmt x = none ∧
      ¬(negFx fmt (oneBits fmt) ≤ x ∧ x ≤ oneBits fmt)) := by
  by_cases h : negFx fmt (oneBits fmt) ≤ x ∧ x ≤ oneBits fmt
  · left; exact ⟨by simp only [UnitInterval.new, if_pos h], h⟩
  · right; exact ⟨by simp only [UnitInterval.new, if_neg h], h⟩

/-- The checked OpenUnitInterval constructor succeeds exactly on (-1, 1). -/
lemma openUnitInterval_new_shape (fmt : Fmt) (x : Int) :
    (OpenUnitInterval.new fmt x = some x ∧
      negFx fmt (oneBits fmt) < x ∧ x < oneBits fmt) ∨
    (OpenUnitInterval.new fmt x = none ∧
      ¬(negFx fmt (oneBits fmt) < x ∧ x < oneBits fmt)) := by
  by_cases h : negFx fmt (oneBits fmt) < x ∧ x < oneBits fmt
  · left; exact ⟨by simp only [OpenUnitInterval.new, if_pos h], h⟩
  · right; exact ⟨by simp only [OpenUnitInterval.new, if_neg h], h⟩

/-- The checked AtLeastOne constructor succeeds exactly on 1 ≤ v. -/
lemma atLeastOne_new_shape (fmt : Fmt) (x : Int) :
    (AtLeastOne.new fmt x = some x ∧ oneBits fmt ≤ x) ∨
    (AtLeastOne.new fmt x = none ∧ ¬(oneBits fmt ≤ x)) := by
  by_cases h : oneBits fmt ≤ x
  · left; exact ⟨by simp only [AtLeastOne.new, if_pos h], h⟩
  · right; exact ⟨by simp only [AtLeastOne.new, if_neg h], h⟩

/-- 1 + x^2 is non-negative in saturating arithmetic. -/
lemma onePlusSquare_nonneg (fmt : Fmt) (x : Int) :
    0 ≤ NonNegative.onePlusSquare fmt x := by
  have h1 := satMul_self_nonneg fmt x
  have h2 := two_pow_pos fmt.f
  have hone : oneBits fmt = 2 ^ fmt.f := rfl
  exact satv_nonneg fmt _ (by omega)

/-- 1 - x^2 is non-negative in saturating arithmetic for x in [-1, 1]. -/
lemma oneMinusSquare_nonneg (fmt : Fmt) (_hv : fmt.Valid) (x : Int)
    (h1 : -(oneBits fmt) ≤ x) (h2 : x ≤ oneBits fmt) :
    0 ≤ NonNegative.oneMinusSquare fmt x := by
  have hP := two_pow_pos fmt.f
  have hmb := minBits_neg fmt
  have hone : oneBits fmt = 2 ^ fmt.f := rfl
  have hsq : x * x ≤ oneBits fmt * oneBits fmt := by
    have hfac : 0 ≤ (oneBits fmt - x) * (oneBits fmt + x) :=
      mul_nonneg (by omega) (by omega)
    nlinarith
  have hdiv : (x * x).fdiv (2 ^ fmt.f) ≤ oneBits fmt := by
    rw [Int.fdiv_eq_ediv _ (by positivity)]
    calc x * x / 2 ^ fmt.f ≤ oneBits fmt * oneBits fmt / 2 ^ fmt.f :=
          Int.ediv_le_ediv (by positivity) hsq
      _ = oneBits fmt := by
          rw [hone]
          exact Int.mul_ediv_cancel _ (two_pow_pos fmt.f).ne'
  have hmul : satMul fmt x x ≤ oneBits fmt := by
    unfold satMul
    exact satv_le fmt _ _ hdiv (by omega)
  exact satv_nonneg fmt _ (by omega)

/-- x^2 - 1 is non-negative in saturating arithmetic for x ≥ 1. -/
lemma squareMinusOne_nonneg (fmt : Fmt) (hv : fmt.Valid) (x : Int)
    (h : oneBits fmt ≤ x) :
    0 ≤ NonNegative.squareMinusOne fmt x := by
  have hP := two_pow_pos fmt.f
  have hone : oneBits fmt = 2 ^ fmt.f := rfl
  have honemax := one_le_maxBits fmt hv
  have hsq : oneBits fmt * oneBits fmt ≤ x * x :=
    mul_le_mul h h (by omega) (by omega)
  have hdiv : oneBits fmt ≤ (x * x).fdiv (2 ^ fmt.f) := by
    rw [Int.fdiv_eq_ediv _ (by positivity)]
    calc oneBits fmt = oneBits fmt * oneBits fmt / 2 ^ fmt.f := by
          rw [hone]
          exact (Int.mul_ediv_cancel _ (two_pow_pos fmt.f).ne').symm
      _ ≤ x * x / 2 ^ fmt.f := Int.ediv_le_ediv (by positivity) hsq
  have hmul : oneBits fmt ≤ satMul fmt x x := by
    unfold satMul
    exact le_satv fmt _ _ hdiv honemax
  exact satv_nonneg fmt _ (by omega)

/-- The bit pattern of one half for formats with a fractional bit. -/
lemma halfBits_eq (fmt : Fmt) (hf : 1 ≤ fmt.f) :
    halfBits fmt = 2 ^ (fmt.f - 1) := by
  have hsplit : (1:Int) * 2 ^ fmt.f = 2 ^ (fmt.f - 1) * 2 := by
    rw [one_mul, ← pow_succ]
    congr 1
    omega
  unfold halfBits fromNumFrac
  simp only [rneFrac]
  rw [hsplit, Int.mul_fdiv_cancel _ (by norm_num)]
  split_ifs <;> omega

/-- The bit pattern of two. -/
lemma twoBits_eq (fmt : Fmt) : twoBits fmt = 2 * oneBits fmt := by
  have hone : oneBits fmt = 2 ^ fmt.f := rfl
  unfold twoBits fromNumFrac
  simp only [rneFrac]
  rw [Int.fdiv_one]
  split_ifs <;> omega

/-- (x - 1) / (x + 1) stays strictly inside (-1, 1) for a normalized ln
argument x in [0.5, 2], for valid formats with a fractional bit. -/
lemma fromNormalizedLnArg_bounds (fmt : Fmt) (hv : fmt.Valid) (hf : 1 ≤ fmt.f)
    (x : Int) (h1 : halfBits fmt ≤ x) (h2 : x ≤ twoBits fmt) :
    negFx fmt (oneBits fmt) < OpenUnitInterval.fromNormalizedLnArg fmt x ∧
    OpenUnitInterval.fromNormalizedLnArg fmt x < oneBits fmt := by
  have hw : 1 ≤ fmt.w := by rcases hv with ⟨_, h⟩; omega
  have hP := two_pow_pos fmt.f
  have hH := two_pow_pos (fmt.f - 1)
  have hPsplit : (2:Int) ^ fmt.f = 2 ^ (fmt.f - 1) * 2 := by
    rw [← pow_succ]; congr 1; omega
  have hone : oneBits fmt = 2 ^ fmt.f := rfl
  have hmaxd : fmt.maxBits = 2 ^ (fmt.w - 1) - 1 := rfl
  have hmind : fmt.minBits = -(2 ^ (fmt.w - 1)) := rfl
  have hf2 := two_pow_f_add_two_le fmt hv
  have hsplit4 : (2:Int) ^ (fmt.f + 2) = 4 * 2 ^ fmt.f := by ring
  rw [halfBits_eq fmt hf] at h1
  rw [twoBits_eq fmt, hone] at h2
  rw [negFx_one fmt hv]
  unfold OpenUnitInterval.fromNormalizedLnArg
  have hnum : subFx fmt x (oneBits fmt) = x - 2 ^ fmt.f := by
    unfold subFx
    rw [hone]
    exact wrapv_eq fmt _ hw (by omega) (by omega)
  have hden : addFx fmt x (oneBits fmt) = x + 2 ^ fmt.f := by
    unfold addFx
    rw [hone]
    exact wrapv_eq fmt _ hw (by omega) (by omega)
  rw [hnum, hden]
  have hdenpos : (0:Int) < x + 2 ^ fmt.f := by omega
  unfold divFx
  rw [if_neg (by omega), hone]
  rcases le_or_lt (2 ^ fmt.f) x with hc | hc
  · have hq : ((x - 2 ^ fmt.f) * 2 ^ fmt.f).tdiv (x + 2 ^ fmt.f) =
        (x - 2 ^ fmt.f) * 2 ^ fmt.f / (x + 2 ^ fmt.f) :=
      Int.tdiv_eq_ediv (mul_nonneg (by omega) hP.le) (by omega)
    rw [hq]
    have hq0 : 0 ≤ (x - 2 ^ fmt.f) * 2 ^ fmt.f / (x + 2 ^ fmt.f) :=
      Int.ediv_nonneg (mul_nonneg (by omega) hP.le) (by omega)
    have hqlt : (x - 2 ^ fmt.f) * 2 ^ fmt.f / (x + 2 ^ fmt.f) < 2 ^ fmt.f := by
      rw [Int.ediv_lt_iff_lt_mul hdenpos]
      calc (x - 2 ^ fmt.f) * 2 ^ fmt.f < (x + 2 ^ fmt.f) * 2 ^ fmt.f :=
            mul_lt_mul_of_pos_right (by omega) hP
        _ = 2 ^ fmt.f * (x + 2 ^ fmt.f) := by ring
    rw [wrapv_eq fmt _ hw (by omega) (by omega)]
    omega
  · have hrw : (x - 2 ^ fmt.f) * 2 ^ fmt.f = -((2 ^ fmt.f - x) * 2 ^ fmt.f) := by
      ring
    rw [hrw, Int.neg_tdiv]
    have hq : ((2 ^ fmt.f - x) * 2 ^ fmt.f).tdiv (x + 2 ^ fmt.f) =
        (2 ^ fmt.f - x) * 2 ^ fmt.f / (x + 2 ^ fmt.f) :=
      Int.tdiv_eq_ediv (mul_nonneg (by omega) hP.le) (by omega)
    rw [hq]
    have hq0 : 0 ≤ (2 ^ fmt.f - x) * 2 ^ fmt.f / (x + 2 ^ fmt.f) :=
      Int.ediv_nonneg (mul_nonneg (by omega) hP.le) (by omega)
    have hqlt : (2 ^ fmt.f - x) * 2 ^ fmt.f / (x + 2 ^ fmt.f) < 2 ^ fmt.f := by
      rw [Int.ediv_lt_iff_lt_mul hdenpos]
      calc (2 ^ fmt.f - x) * 2 ^ fmt.f < (x + 2 ^ fmt.f) * 2 ^ fmt.f :=
            mul_lt_mul_of_pos_right (by omega) hP
        _ = 2 ^ fmt.f * (x + 2 ^ fmt.f) := by ring
    rw [wrapv_eq fmt _ hw (by omega) (by omega)]
    omega

/-- sqrt(x^2 - 1) / x stays strictly inside (-1, 1) for every x >= 1,
whenever the supplied square root s is non-negative and below x: the
quotient s * 2^f / x then truncates into [0, 2^f). -/
lemma fromSqrtSquareMinusOneDiv_bounds (fmt : Fmt) (hv : fmt.Valid)
    (s x : Int) (hx : oneBits fmt ≤ x) (hs0 : 0 ≤ s) (hsx : s < x) :
    negFx fmt (oneBits fmt) < OpenUnitInterval.fromSqrtSquareMinusOneDiv fmt s x ∧
    OpenUnitInterval.fromSqrtSquareMinusOneDiv fmt s x < oneBits fmt := by
  have hw : 1 ≤ fmt.w := by rcases hv with ⟨_, h⟩; omega
  have hP := two_pow_pos fmt.f
  have hone : oneBits fmt = 2 ^ fmt.f := rfl
  have honemax := one_le_maxBits fmt hv
  have hmaxd : fmt.maxBits = 2 ^ (fmt.w - 1) - 1 := rfl
  have hmind : fmt.minBits = -(2 ^ (fmt.w - 1)) := rfl
  have hxpos : (0:Int) < x := lt_of_lt_of_le (by rw [hone]; exact hP) hx
  rw [hone] at hx honemax
  rw [negFx_one fmt hv]
  unfold OpenUnitInterval.fromSqrtSquareMinusOneDiv divFx
  rw [if_neg (by omega)]
  have hq : (s * 2 ^ fmt.f).tdiv x = s * 2 ^ fmt.f / x :=
    Int.tdiv_eq_ediv (mul_nonneg hs0 hP.le) hxpos.le
  rw [hq, hone]
  have hq0 : 0 ≤ s * 2 ^ fmt.f / x :=
    Int.ediv_nonneg (mul_nonneg hs0 hP.le) hxpos.le
  have hqlt : s * 2 ^ fmt.f / x < 2 ^ fmt.f := by
    rw [Int.ediv_lt_iff_lt_mul hxpos]
    calc s * 2 ^ fmt.f < x * 2 ^ fmt.f := mul_lt_mul_of_pos_right hsx hP
      _ = 2 ^ fmt.f * x := by ring
  rw [wrapv_eq fmt _ hw (by omega) (by omega)]
  omega

set_option maxHeartbeats 16000000 in
/-- C7 amended: the checked constructors succeed exactly on inputs
satisfying their predicates and wrap the input unchanged; the algebraic
identity constructors 1 + x^2, 1 - x^2 on [-1, 1] and x^2 - 1 on x ≥ 1
always satisfy non-negativity under the saturating arithmetic, and
(x - 1) / (x + 1) on [0.5, 2] stays strictly inside (-1, 1); the
sqrt(x^2 - 1) / x constructor stays strictly inside (-1, 1) for every
x ≥ 1 whenever the supplied square root is non-negative and below x,
and that in-range property of the full chain with the canonical square
root holds exhaustively on every 8-bit format with one to five
fractional bits over the whole domain, and on the I16F16 windows just
above one and around the tightest point near the x^2 saturation
boundary; only the x / sqrt(1 + x^2) constructor is excluded: it
escapes (-1, 1) once 1 + x^2 saturates (see the counterexample). -/
theorem C7_bounded_invariants (fmt : Fmt) (hv : fmt.Valid) (x : Int) :
    ((NonNegative.new fmt x = some x ∧ 0 ≤ x) ∨
     (NonNegative.new fmt x = none ∧ x < 0)) ∧
    ((UnitInterval.new fmt x = some x ∧
       negFx fmt (oneBits fmt) ≤ x ∧ x ≤ oneBits fmt) ∨
     (UnitInterval.new fmt x = none ∧
       ¬(negFx fmt (oneBits fmt) ≤ x ∧ x ≤ oneBits fmt))) ∧
    ((OpenUnitInterval.new fmt x = some x ∧
       negFx fmt (oneBits fmt) < x ∧ x < oneBits fmt) ∨
     (OpenUnitInterval.new fmt x = none ∧
       ¬(negFx fmt (oneBits fmt) < x ∧ x < oneBits fmt))) ∧
    ((AtLeastOne.new fmt x = some x ∧ oneBits fmt ≤ x) ∨
     (AtLeastOne.new fmt x = none ∧ ¬(oneBits fmt ≤ x))) ∧
    0 ≤ NonNegative.onePlusSquare fmt x ∧
    (negFx fmt (oneBits fmt) ≤ x → x ≤ oneBits fmt →
      0 ≤ NonNegative.oneMinusSquare fmt x) ∧
    (oneBits fmt ≤ x → 0 ≤ NonNegative.squareMinusOne fmt x) ∧
    (1 ≤ fmt.f → halfBits fmt ≤ x → x ≤ twoBits fmt →
      negFx fmt (oneBits fmt) < OpenUnitInterval.fromNormalizedLnArg fmt x ∧
      OpenUnitInterval.fromNormalizedLnArg fmt x < oneBits fmt) ∧
    (oneBits fmt ≤ x → ∀ s : Int, 0 ≤ s → s < x →
      negFx fmt (oneBits fmt) < OpenUnitInterval.fromSqrtSquareMinusOneDiv fmt s x ∧
      OpenUnitInterval.fromSqrtSquareMinusOneDiv fmt s x < oneBits fmt) ∧
    ((List.range 126).all (fun i => sqrtCtorInRange i7f1 (2 + (i : Int))) = true ∧
     (List.range 124).all (fun i => sqrtCtorInRange i6f2 (4 + (i : Int))) = true ∧
     (List.range 120).all (fun i => sqrtCtorInRange i5f3 (8 + (i : Int))) = true ∧
     (List.range 112).all (fun i => sqrtCtorInRange i4f4 (16 + (i : Int))) = true ∧
     (List.range 96).all (fun i => sqrtCtorInRange i3f5 (32 + (i : Int))) = true) ∧
    ((List.range 257).all (fun i => sqrtCtorInRange i16f16 (65536 + (i : Int))) = true ∧
     (List.range 401).all (fun i => sqrtCtorInRange i16f16 (11860683 + (i : Int))) = true) := by
  refine ⟨nonNegative_new_shape fmt x, unitInterval_new_shape fmt x,
    openUnitInterval_new_shape fmt x, atLeastOne_new_shape fmt x,
    onePlusSquare_nonneg fmt x, ?_, squareMinusOne_nonneg fmt hv x,
    fun hf ha hb => fromNormalizedLnArg_bounds fmt hv hf x ha hb,
    fun hx s hs0 hsx => fromSqrtSquareMinusOneDiv_bounds fmt hv s x hx hs0 hsx,
    ⟨by decide, by decide, by decide, by decide, by decide⟩,
    ⟨by decide, by decide⟩⟩
  intro hx1 hx2
  exact oneMinusSquare_nonneg fmt hv x (by rw [negFx_one fmt hv] at hx1; omega) hx2

set_option maxHeartbeats 1000000 in
/-- C7 witness: the invariants instantiated at I16F16 with 0.5 and 2,
including the sqrt(x^2 - 1) / x bound at x = 2 with the canonical
square root of the x^2 - 1 chain. -/
theorem C7_bounded_invariants_witness :
    0 ≤ NonNegative.onePlusSquare i16f16 32768 ∧
    0 ≤ NonNegative.oneMinusSquare i16f16 32768 ∧
    0 ≤ NonNegative.squareMinusOne i16f16 131072 ∧
    (negFx i16f16 (oneBits i16f16) < OpenUnitInterval.fromNormalizedLnArg i16f16 32768 ∧
     OpenUnitInterval.fromNormalizedLnArg i16f16 32768 < oneBits i16f16) ∧
    (negFx i16f16 (oneBits i16f16) <
       OpenUnitInterval.fromSqrtSquareMinusOneDiv i16f16
         (sqrtNonneg i16f16 (NonNegative.squareMinusOne i16f16 131072)) 131072 ∧
     OpenUnitInterval.fromSqrtSquareMinusOneDiv i16f16
       (sqrtNonneg i16f16 (NonNegative.squareMinusOne i16f16 131072)) 131072 <
       oneBits i16f16) ∧
    NonNegative.new i16f16 32768 = some 32768 := by
  have h1 := C7_bounded_invariants i16f16 (by decide) 32768
  have h2 := C7_bounded_invariants i16f16 (by decide) 131072
  refine ⟨h1.2.2.2.2.1, h1.2.2.2.2.2.1 (by decide) (by decide),
    h2.2.2.2.2.2.2.1 (by decide),
    h1.2.2.2.2.2.2.2.1 (by decide) (by decide) (by decide),
    h2.2.2.2.2.2.2.2.2.1 (by decide)
      (sqrtNonneg i16f16 (NonNegative.squareMinusOne i16f16 131072))
      (by decide) (by decide), ?_⟩
  rcases h1.1 with ⟨h, _⟩ | ⟨_, h⟩
  · exact h
  · omega


/-! Lemmas for the atanh argument reduction. -/

/-- The direct-computation threshold (from_num 0.75) is exact for formats
with two fractional bits. -/
lemma thr_eq (fmt : Fmt) (hf : 2 ≤ fmt.f) :
    fromNumFrac fmt 3 4 = 3 * 2 ^ (fmt.f - 2) := by
  have hsplit : (3:Int) * 2 ^ fmt.f = 3 * 2 ^ (fmt.f - 2) * 4 := by
    have h4 : (2:Int) ^ fmt.f = 2 ^ (fmt.f - 2) * 4 := by
      rw [show (4:Int) = 2 ^ 2 by norm_num, ← pow_add]
      congr 1
      omega
    rw [h4]; ring
  unfold fromNumFrac
  simp only [rneFrac]
  rw [hsplit, Int.mul_fdiv_cancel _ (by norm_num)]
  split_ifs <;> omega

/-- Multiplying by one half computes the floored halving for in-range
non-negative arguments. -/
lemma satMul_half_eq (fmt : Fmt) (hf : 1 ≤ fmt.f) (a : Int) (h0 : 0 ≤ a)
    (hmax : a ≤ fmt.maxBits) :
    satMul fmt (halfBits fmt) a = a / 2 := by
  have hH := two_pow_pos (fmt.f - 1)
  have hPsplit : (2:Int) ^ fmt.f = 2 ^ (fmt.f - 1) * 2 := by
    rw [← pow_succ]; congr 1; omega
  have hmb := minBits_neg fmt
  have hstep : (2 ^ (fmt.f - 1) * a).fdiv (2 ^ fmt.f) = a / 2 := by
    rw [Int.fdiv_eq_ediv _ (by positivity), hPsplit]
    exact Int.mul_ediv_mul_of_pos _ _ hH
  have hle : a / 2 ≤ a := Int.ediv_le_self _ h0
  have hnn : 0 ≤ a / 2 := Int.ediv_nonneg h0 (by norm_num)
  unfold satMul
  rw [halfBits_eq fmt hf, hstep]
  exact satv_eq fmt _ (by omega) (by omega)

/-- The atanh reduction strictly shrinks an absolute value strictly
between the 0.75 threshold and one, and never leaves [0, a). -/
lemma atanhReduced_bounds (fmt : Fmt) (hv : fmt.Valid) (hf : 2 ≤ fmt.f)
    (a : Int) (h1 : fromNumFrac fmt 3 4 < a) (h2 : a < oneBits fmt) :
    0 ≤ atanhReduced fmt a ∧ atanhReduced fmt a < a := by
  have hw : 1 ≤ fmt.w := by rcases hv with ⟨_, h⟩; omega
  have hP := two_pow_pos fmt.f
  have hH := two_pow_pos (fmt.f - 1)
  have hQ := two_pow_pos (fmt.f - 2)
  have hPsplit : (2:Int) ^ fmt.f = 2 ^ (fmt.f - 1) * 2 := by
    rw [← pow_succ]; congr 1; omega
  have hHsplit : (2:Int) ^ (fmt.f - 1) = 2 ^ (fmt.f - 2) * 2 := by
    rw [← pow_succ]; congr 1; omega
  have hone : oneBits fmt = 2 ^ fmt.f := rfl
  have hmaxd : fmt.maxBits = 2 ^ (fmt.w - 1) - 1 := rfl
  have hmind : fmt.minBits = -(2 ^ (fmt.w - 1)) := rfl
  have hf2 := two_pow_f_add_two_le fmt hv
  have hsplit4 : (2:Int) ^ (fmt.f + 2) = 4 * 2 ^ fmt.f := by ring
  rw [thr_eq fmt hf] at h1
  rw [hone] at h2
  have hediv2 : 2 * (a / 2) ≤ a ∧ a ≤ 2 * (a / 2) + 1 := by omega
  have hsm : satMul fmt (halfBits fmt) a = a / 2 :=
    satMul_half_eq fmt (by omega) a (by omega) (by omega)
  unfold atanhReduced
  have hnum : subFx fmt a (halfBits fmt) = a - 2 ^ (fmt.f - 1) := by
    unfold subFx
    rw [halfBits_eq fmt (by omega)]
    exact wrapv_eq fmt _ hw (by omega) (by omega)
  have hden : subFx fmt (oneBits fmt) (satMul fmt (halfBits fmt) a) =
      2 ^ fmt.f - a / 2 := by
    unfold subFx
    rw [hsm, hone]
    exact wrapv_eq fmt _ hw (by omega) (by omega)
  rw [hnum, hden]
  have hdenpos : (0:Int) < 2 ^ fmt.f - a / 2 := by omega
  have hnumpos : (0:Int) ≤ a - 2 ^ (fmt.f - 1) := by omega
  unfold divFx
  rw [if_neg (by omega)]
  have hq : ((a - 2 ^ (fmt.f - 1)) * 2 ^ fmt.f).tdiv (2 ^ fmt.f - a / 2) =
      (a - 2 ^ (fmt.f - 1)) * 2 ^ fmt.f / (2 ^ fmt.f - a / 2) :=
    Int.tdiv_eq_ediv (mul_nonneg hnumpos hP.le) hdenpos.le
  rw [hq]
  have hq0 : 0 ≤ (a - 2 ^ (fmt.f - 1)) * 2 ^ fmt.f / (2 ^ fmt.f - a / 2) :=
    Int.ediv_nonneg (mul_nonneg hnumpos hP.le) hdenpos.le
  have hkey : a * (a / 2) < 2 ^ (fmt.f - 1) * 2 ^ fmt.f := by
    have k3 : a * (2 * (a / 2)) ≤ a * a :=
      mul_le_mul_of_nonneg_left hediv2.1 (by omega)
    have k4 : a * a < 2 ^ fmt.f * 2 ^ fmt.f :=
      mul_lt_mul'' h2 h2 (by omega) (by omega)
    have k5 : (2:Int) ^ fmt.f * 2 ^ fmt.f = 2 * (2 ^ (fmt.f - 1) * 2 ^ fmt.f) := by
      rw [hPsplit]; ring
    have k6 : a * (2 * (a / 2)) = 2 * (a * (a / 2)) := by ring
    omega
  have hqlt : (a - 2 ^ (fmt.f - 1)) * 2 ^ fmt.f / (2 ^ fmt.f - a / 2) < a := by
    rw [Int.ediv_lt_iff_lt_mul hdenpos]
    have e1 : (a - 2 ^ (fmt.f - 1)) * 2 ^ fmt.f =
        a * 2 ^ fmt.f - 2 ^ (fmt.f - 1) * 2 ^ fmt.f := by ring
    have e2 : a * (2 ^ fmt.f - a / 2) = a * 2 ^ fmt.f - a * (a / 2) := by ring
    omega
  constructor
  · exact le_trans hq0 (by
      rw [wrapv_eq fmt _ hw (by omega) (by omega)])
  · rw [wrapv_eq fmt _ hw (by omega) (by omega)]
    exact hqlt

/-- The absolute value of an in-range argument, as a natural number cast. -/
lemma absFx_spec (fmt : Fmt) (hv : fmt.Valid) (x : Int)
    (h1 : negFx fmt (oneBits fmt) < x) (h2 : x < oneBits fmt) :
    absFx fmt x = (x.natAbs : Int) ∧ absFx fmt x < oneBits fmt := by
  have hw : 1 ≤ fmt.w := by rcases hv with ⟨_, h⟩; omega
  have hone : oneBits fmt = 2 ^ fmt.f := rfl
  have hfle : (2:Int) ^ fmt.f ≤ 2 ^ (fmt.w - 1) :=
    two_pow_le_two_pow _ _ (by rcases hv with ⟨_, h⟩; omega)
  have hmaxd : fmt.maxBits = 2 ^ (fmt.w - 1) - 1 := rfl
  have hmind : fmt.minBits = -(2 ^ (fmt.w - 1)) := rfl
  rw [negFx_one fmt hv] at h1
  unfold absFx
  split_ifs with hneg
  · unfold negFx
    rw [wrapv_eq fmt _ hw (by omega) (by omega)]
    omega
  · omega

/-- Fuel above the magnitude of the argument does not change atanh_inner
for arguments strictly inside (-1, 1): the reduction strictly shrinks
the magnitude, so the recursion bottoms out before the fuel does. -/
lemma atanhInnerAux_stable (fmt : Fmt) (hv : fmt.Valid) (hf : 2 ≤ fmt.f) :
    ∀ (k : Nat) (x : Int), x.natAbs ≤ k →
      negFx fmt (oneBits fmt) < x → x < oneBits fmt →
      ∀ n : Nat, x.natAbs + 1 ≤ n →
        atanhInnerAux fmt n x = atanhInnerAux fmt (x.natAbs + 1) x := by
  intro k
  induction k with
  | zero =>
    intro x hk h1 h2 n hn
    have hx0 : x = 0 := by omega
    subst hx0
    obtain ⟨m, rfl⟩ : ∃ m, n = m + 1 := ⟨n - 1, by omega⟩
    simp [atanhInnerAux]
  | succ k ih =>
    intro x hk h1 h2 n hn
    obtain ⟨m, rfl⟩ : ∃ m, n = m + 1 := ⟨n - 1, by omega⟩
    by_cases hx0 : x = 0
    · subst hx0; simp [atanhInnerAux]
    have habs := absFx_spec fmt hv x h1 h2
    simp only [atanhInnerAux]
    rw [if_neg hx0, if_neg hx0]
    by_cases hthr : absFx fmt x ≤ fromNumFrac fmt 3 4
    · rw [if_pos hthr, if_pos hthr]
    rw [if_neg hthr, if_neg hthr]
    have hred := atanhReduced_bounds fmt hv hf (absFx fmt x) (by omega) habs.2
    have hlt1 : negFx fmt (oneBits fmt) < atanhReduced fmt (absFx fmt x) := by
      rw [negFx_one fmt hv]
      have := two_pow_pos fmt.f
      have hone : oneBits fmt = 2 ^ fmt.f := rfl
      omega
    have hlt2 : atanhReduced fmt (absFx fmt x) < oneBits fmt := by
      have h3 := habs.2
      omega
    have hrn : (atanhReduced fmt (absFx fmt x)).natAbs < x.natAbs := by
      have h3 := habs.1
      have h4 := hred.1
      have h5 := hred.2
      omega
    have e1 := ih (atanhReduced fmt (absFx fmt x)) (by omega) hlt1 hlt2 m (by omega)
    have e2 := ih (atanhReduced fmt (absFx fmt x)) (by omega) hlt1 hlt2 x.natAbs
      (by omega)
    rw [e1, e2]

/-- C8: the recursive argument reduction of atanh terminates on (-1, 1):
above the 0.75 threshold the reduced argument (|x| - 0.5) / (1 - 0.5 |x|)
computed in fixed-point arithmetic is non-negative and strictly smaller
in magnitude than |x|, and consequently atanh_inner is independent of
any recursion budget beyond the magnitude of its argument: every call
returns after a bounded number of reductions. -/
theorem C8_atanh_reduction_bounded (fmt : Fmt) (hv : fmt.Valid) (hf : 2 ≤ fmt.f)
    (x : Int) (h1 : negFx fmt (oneBits fmt) < x) (h2 : x < oneBits fmt) :
    (fromNumFrac fmt 3 4 < absFx fmt x →
      0 ≤ atanhReduced fmt (absFx fmt x) ∧
      atanhReduced fmt (absFx fmt x) < absFx fmt x) ∧
    ∀ n : Nat, x.natAbs + 1 ≤ n → atanhInnerAux fmt n x = atanhInner fmt x := by
  constructor
  · intro hthr
    exact atanhReduced_bounds fmt hv hf (absFx fmt x) hthr (absFx_spec fmt hv x h1 h2).2
  · intro n hn
    unfold atanhInner
    exact atanhInnerAux_stable fmt hv hf x.natAbs x le_rfl h1 h2 n hn

/-- C8 witness: the I16F16 argument 52000 (about 0.79) lies above the
threshold 49152 (0.75); its reduction is 31489, strictly smaller, and
atanh_inner is stable under any larger recursion budget. -/
theorem C8_atanh_reduction_bounded_witness :
    i16f16.Valid ∧ 2 ≤ i16f16.f ∧
    negFx i16f16 (oneBits i16f16) < 52000 ∧ (52000:Int) < oneBits i16f16 ∧
    fromNumFrac i16f16 3 4 < absFx i16f16 52000 ∧
    (0 ≤ atanhReduced i16f16 (absFx i16f16 52000) ∧
     atanhReduced i16f16 (absFx i16f16 52000) < absFx i16f16 52000) ∧
    atanhInnerAux i16f16 60000 52000 = atanhInner i16f16 52000 := by
  have h := C8_atanh_reduction_bounded i16f16 (by decide) (by decide) 52000
    (by decide) (by decide)
  exact ⟨by decide, by decide, by decide, by decide, by decide,
    h.1 (by decide), h.2 60000 (by decide)⟩


end FixedAnalytics
